import Mathlib

/-!
Verification of the `dbrw` database reader/writer library.

A shallow embedding, in Lean 4, of the parts of the `dbrw` Python package
(files `db_table_reader.py`, `db_table_writer.py`, `db_utilities.py`)
needed to settle the specification claims: the windowed table reader, the
retrying bulk writer, the query executor's error swallowing, identifier
escaping, column-type inference, the relation-existence probe and the
row-count query.

Database effects are modelled explicitly: a table snapshot is a list of
rows already in the configured sort order after filtering (the ORDER
BY/WHERE are executed by the database server, outside the Python code);
a `SELECT ... LIMIT l OFFSET o` over that snapshot is `drop o` then
`take l`; insert attempts are driven by an outcome oracle.
-/

namespace Dbrw

/-! ## Windowed table reader (`db_table_reader.py`) -/

/-- Constant `CACHE_MAX_ROWS = 10000`: maximum number of rows allowed in the cache. -/
def CACHE_MAX_ROWS : Nat := 10000

/-- Embedding of `DbUtilities.get_table_data(..., limit, offset, ...)` on a
table snapshot `tbl` (the sorted, filtered row sequence): the database
applies `OFFSET offset` then `LIMIT limit`. -/
def get_table_data (tbl : List α) (limit offset : Nat) : List α :=
  (tbl.drop offset).take limit

/-- The mutable fields of `DbReader` set by `__iter__`/`__next__`:
`__row_count`, `__cache`, `__cache_min`, `__cache_max`, `__data_pos`.
`cache_max` is an `Int` because Python sets it to `len(cache) - 1`,
which is `-1` for an empty first page. -/
structure RState (α : Type) where
  row_count : Nat
  cache : List α
  cache_min : Nat
  cache_max : Int
  data_pos : Nat
deriving Repr, DecidableEq

/-- Embedding of `DbReader.__iter__`: snapshot the row count, fetch the
first page of up to `CACHE_MAX_ROWS` rows at offset 0, set
`cache_min = 0`, `cache_max = len(cache) - 1`, `data_pos = 0`. -/
def dbIter (tbl : List α) : RState α :=
  let cache := get_table_data tbl CACHE_MAX_ROWS 0
  ⟨tbl.length, cache, 0, (cache.length : Int) - 1, 0⟩

/-- Embedding of `DbReader.__next__`.  `none` models `StopIteration`
(when `data_pos >= row_count`); otherwise the row at
`cache[data_pos - cache_min]` is returned (after a cache refill from
offset `data_pos` when `data_pos` lies outside `[cache_min, cache_max]`)
and `data_pos` is incremented.  List indexing uses `get?`; an
out-of-range index (Python `IndexError`) surfaces as `none`. -/
def dbNext (tbl : List α) (s : RState α) : Option (α × RState α) :=
  if s.row_count ≤ s.data_pos then
    none
  else if s.cache_min ≤ s.data_pos ∧ (s.data_pos : Int) ≤ s.cache_max then
    (s.cache.get? (s.data_pos - s.cache_min)).map
      (fun r => (r, { s with data_pos := s.data_pos + 1 }))
  else
    let c := get_table_data tbl CACHE_MAX_ROWS s.data_pos
    (c.get? (s.data_pos - s.data_pos)).map
      (fun r =>
        (r, ⟨s.row_count, c, s.data_pos,
             (s.data_pos : Int) + (c.length : Int) - 1, s.data_pos + 1⟩))

/-- Run the iterator: call `__next__` up to `fuel` times, collecting the
yielded rows in order, stopping at `StopIteration`. -/
def dbRun (tbl : List α) : Nat → RState α → List α
  | 0, _ => []
  | fuel + 1, s =>
    match dbNext tbl s with
    | none => []
    | some (r, s') => r :: dbRun tbl fuel s'

/-- Invariant of the reader state relative to the table snapshot `tbl`:
the snapshot count is the table length, the cache is the page of up to
`CACHE_MAX_ROWS` rows starting at `cache_min`, `cache_max` is
`cache_min + len(cache) - 1`, and the cursor lies between `cache_min`
and the first position past the cached page. -/
def ReaderInv (tbl : List α) (s : RState α) : Prop :=
  s.row_count = tbl.length ∧
  s.cache = get_table_data tbl CACHE_MAX_ROWS s.cache_min ∧
  s.cache_max = (s.cache_min : Int) + (s.cache.length : Int) - 1 ∧
  s.cache_min ≤ s.data_pos ∧
  s.data_pos ≤ s.cache_min + s.cache.length

theorem dbIter_inv (tbl : List α) : ReaderInv tbl (dbIter tbl) := by
  refine ⟨rfl, rfl, ?_, Nat.le_refl 0, Nat.zero_le _⟩
  simp [dbIter]

theorem get_table_data_length (tbl : List α) (limit offset : Nat) :
    (get_table_data tbl limit offset).length =
      min limit (tbl.length - offset) := by
  simp [get_table_data]

theorem get_table_data_get? (tbl : List α) (limit offset i : Nat)
    (hi : i < limit) :
    (get_table_data tbl limit offset).get? i = tbl.get? (offset + i) := by
  simp only [get_table_data, List.get?_eq_getElem?]
  rw [List.getElem?_take_of_lt hi, List.getElem?_drop]

/-- One successful step of the iterator: from an invariant state whose
cursor is strictly below the row count, `__next__` yields exactly the
table row at offset `data_pos` and re-establishes the invariant with the
cursor advanced by one. -/
theorem dbNext_step (tbl : List α) (s : RState α)
    (hinv : ReaderInv tbl s) (hlt : s.data_pos < tbl.length) :
    ∃ s', dbNext tbl s = some (tbl.get ⟨s.data_pos, hlt⟩, s') ∧
      ReaderInv tbl s' ∧ s'.data_pos = s.data_pos + 1 := by
  obtain ⟨hrc, hcache, hmax, hmin, hup⟩ := hinv
  have hnotstop : ¬ s.row_count ≤ s.data_pos := by omega
  by_cases hwin : s.cache_min ≤ s.data_pos ∧ (s.data_pos : Int) ≤ s.cache_max
  · -- cache hit
    have hidx : s.data_pos - s.cache_min < s.cache.length := by
      have := hwin.2
      omega
    have hcap : s.data_pos - s.cache_min < CACHE_MAX_ROWS := by
      have : s.cache.length ≤ CACHE_MAX_ROWS := by
        rw [hcache, get_table_data_length]
        exact Nat.min_le_left _ _
      omega
    have hget : s.cache.get? (s.data_pos - s.cache_min) =
        some (tbl.get ⟨s.data_pos, hlt⟩) := by
      rw [hcache, get_table_data_get? tbl CACHE_MAX_ROWS s.cache_min _ hcap]
      have harith : s.cache_min + (s.data_pos - s.cache_min) = s.data_pos := by
        omega
      rw [harith, List.get?_eq_get hlt]
    refine ⟨{ s with data_pos := s.data_pos + 1 }, ?_, ?_, rfl⟩
    · simp only [dbNext, if_neg hnotstop, if_pos hwin, hget, Option.map_some']
    · refine ⟨hrc, hcache, hmax, ?_, ?_⟩
      · show s.cache_min ≤ s.data_pos + 1
        omega
      · show s.data_pos + 1 ≤ s.cache_min + s.cache.length
        omega
  · -- cache miss: refill from offset data_pos
    have hge : s.cache_min + s.cache.length ≤ s.data_pos := by
      rcases not_and_or.mp hwin with h | h
      · omega
      · have : s.cache_max < (s.data_pos : Int) := by
          exact lt_of_not_le h
        omega
    have heq : s.data_pos = s.cache_min + s.cache.length := by omega
    have hczero : 0 < CACHE_MAX_ROWS := by decide
    have hget : (get_table_data tbl CACHE_MAX_ROWS s.data_pos).get?
        (s.data_pos - s.data_pos) = some (tbl.get ⟨s.data_pos, hlt⟩) := by
      rw [Nat.sub_self]
      rw [get_table_data_get? tbl CACHE_MAX_ROWS s.data_pos 0 hczero]
      rw [Nat.add_zero, List.get?_eq_get hlt]
    refine ⟨⟨s.row_count, get_table_data tbl CACHE_MAX_ROWS s.data_pos,
      s.data_pos,
      (s.data_pos : Int) +
        ((get_table_data tbl CACHE_MAX_ROWS s.data_pos).length : Int) - 1,
      s.data_pos + 1⟩, ?_, ?_, rfl⟩
    · simp only [dbNext, if_neg hnotstop, if_neg hwin, hget, Option.map_some']
    · refine ⟨hrc, rfl, rfl, Nat.le_succ _, ?_⟩
      show s.data_pos + 1 ≤
        s.data_pos + (get_table_data tbl CACHE_MAX_ROWS s.data_pos).length
      have hlen : 0 < (get_table_data tbl CACHE_MAX_ROWS s.data_pos).length := by
        rw [get_table_data_length]
        omega
      omega

/-- From any invariant state, running with enough fuel yields exactly the
suffix of the table starting at the cursor. -/
theorem dbRun_inv (tbl : List α) :
    ∀ (fuel : Nat) (s : RState α), ReaderInv tbl s →
      tbl.length - s.data_pos ≤ fuel →
      dbRun tbl fuel s = tbl.drop s.data_pos := by
  intro fuel
  induction fuel with
  | zero =>
    intro s _ hfuel
    have : tbl.length ≤ s.data_pos := by omega
    simp [dbRun, List.drop_eq_nil_of_le this]
  | succ n ih =>
    intro s hinv hfuel
    by_cases hlt : s.data_pos < tbl.length
    · obtain ⟨s', hstep, hinv', hpos⟩ := dbNext_step tbl s hinv hlt
      have hrec : dbRun tbl n s' = tbl.drop s'.data_pos :=
        ih s' hinv' (by omega)
      have hunfold : dbRun tbl (n + 1) s =
          tbl.get ⟨s.data_pos, hlt⟩ :: dbRun tbl n s' := by
        simp only [dbRun, hstep]
      rw [hunfold, hrec, hpos]
      exact (List.drop_eq_getElem_cons hlt).symm
    · have hstop : tbl.length ≤ s.data_pos := by omega
      have hnext : dbNext tbl s = none := by
        have : s.row_count ≤ s.data_pos := by
          rw [hinv.1]; exact hstop
        simp [dbNext, this]
      have hunfold : dbRun tbl (n + 1) s = [] := by
        simp only [dbRun, hnext]
      rw [hunfold]
      exact (List.drop_eq_nil_of_le hstop).symm

/-- C1. For every table snapshot `tbl` (row count `R = tbl.length`,
already in the configured sort order after filtering), a full iteration
of `DbReader` — `__iter__` followed by `__next__` until `StopIteration`
— yields exactly the `R` rows at logical offsets `0, …, R-1`, each once,
in order, for any fuel of at least `R` calls (so iteration also stops:
extra calls yield nothing).  For `R = 0` it yields zero rows
immediately.  This holds whether or not `R` is a multiple of
`CACHE_MAX_ROWS`. -/
theorem dbReader_full_iteration_yields_table (α : Type) (tbl : List α)
    (extra : Nat) :
    dbRun tbl (tbl.length + extra) (dbIter tbl) = tbl := by
  have h := dbRun_inv tbl (tbl.length + extra) (dbIter tbl)
    (dbIter_inv tbl) (by show tbl.length - 0 ≤ tbl.length + extra; omega)
  simpa [dbIter] using h

/-- C6. The cache window equation
`cache_max - cache_min + 1 == len(cache)` holds after `__iter__`
completes, and is preserved by every completed `__next__` step (one that
returns a row rather than raising `StopIteration`). -/
theorem cache_window_equation :
    (∀ (α : Type) (tbl : List α),
      (dbIter tbl).cache_max - ((dbIter tbl).cache_min : Int) + 1 =
        ((dbIter tbl).cache.length : Int)) ∧
    (∀ (α : Type) (tbl : List α) (s s' : RState α) (r : α),
      dbNext tbl s = some (r, s') →
      s.cache_max - (s.cache_min : Int) + 1 = (s.cache.length : Int) →
      s'.cache_max - (s'.cache_min : Int) + 1 = (s'.cache.length : Int)) := by
  constructor
  · intro α tbl
    show ((get_table_data tbl CACHE_MAX_ROWS 0).length : Int) - 1 -
        ((0 : Nat) : Int) + 1 = ((get_table_data tbl CACHE_MAX_ROWS 0).length : Int)
    push_cast
    ring
  · intro α tbl s s' r h hW
    simp only [dbNext] at h
    split_ifs at h with h1 h2
    · rcases Option.map_eq_some'.mp h with ⟨a, _, hfa⟩
      obtain ⟨hr, hs'⟩ := Prod.mk.injEq .. ▸ hfa
      subst hs'
      simpa using hW
    · rcases Option.map_eq_some'.mp h with ⟨a, _, hfa⟩
      obtain ⟨hr, hs'⟩ := Prod.mk.injEq .. ▸ hfa
      subst hs'
      show (s.data_pos : Int) +
          ((get_table_data tbl CACHE_MAX_ROWS s.data_pos).length : Int) - 1 -
          (s.data_pos : Int) + 1 = _
      ring

/-- Witness for C6 at the concrete table `[10, 20, 30]`: the window
equation holds in the initial state, and, after the step
`dbNext [10,20,30] (dbIter [10,20,30]) =
some (10, ⟨3, [10,20,30], 0, 2, 1⟩)`, in the successor state. -/
theorem cache_window_equation_witness :
    ((dbIter ([10, 20, 30] : List Nat)).cache_max -
        ((dbIter ([10, 20, 30] : List Nat)).cache_min : Int) + 1 =
      ((dbIter ([10, 20, 30] : List Nat)).cache.length : Int)) ∧
    ((⟨3, [10, 20, 30], 0, 2, 1⟩ : RState Nat).cache_max -
        (((⟨3, [10, 20, 30], 0, 2, 1⟩ : RState Nat).cache_min : Nat) : Int) + 1 =
      (((⟨3, [10, 20, 30], 0, 2, 1⟩ : RState Nat).cache.length : Nat) : Int)) :=
  ⟨cache_window_equation.1 Nat [10, 20, 30],
   cache_window_equation.2 Nat [10, 20, 30] (dbIter [10, 20, 30])
     ⟨3, [10, 20, 30], 0, 2, 1⟩ 10 (by decide) (by decide)⟩

/-! ## Bulk table writer (`db_table_writer.py`)

`DbWriter.write_table_data(table_data, max_attempts=5)` loops over the
tables of the batch; for each it runs
`attempts = 0; while attempts <= max_attempts: attempts += 1; try: ...`.
Inside the `try`, when `attempts == max_attempts` a new connection is
created (`create_connection`, lines 104-106), then the multi-row insert
is executed and committed; on success the function returns `True`
immediately (line 143).  On an exception, if `attempts <= max_attempts`
the connection is rolled back and the attempt retried after a sleep,
otherwise the failure is logged; after the loop the next table is
processed, and `False` is returned once all tables are exhausted.

The fallible step (building and executing the insert, committing) is
driven by an oracle `ok : String → Nat → Bool` giving the outcome of the
attempt numbered `a` (the value of `attempts` after the increment) for
each table.  The observable effects — commits, rollbacks, new
connections, and the `(table, attempt-number)` pairs tried, in order —
are accumulated in a `WState`. -/

/-- Observable effects of a `write_table_data` call. -/
structure WState where
  commits : Nat
  rollbacks : Nat
  newConns : Nat
  attempts_log : List (String × Nat)
deriving Repr, DecidableEq

/-- The all-zero effect state at the start of a call. -/
def WState.init : WState := ⟨0, 0, 0, []⟩

/-- Embedding of the `while attempts <= max_attempts` retry loop for one
table `t`, entered with the current value of the Python variable
`attempts` (initially 0, incremented at the top of each iteration).
Returns whether the loop hit `return True`, together with the
accumulated effects.  A new connection is counted exactly when the
incremented `attempts` equals `max_attempts` (line 105); a rollback is
counted on a failed attempt exactly when the incremented `attempts` is
still `<= max_attempts` (lines 145-148; the connection is open in every
reachable failing state). -/
def attemptLoop (ok : String → Nat → Bool) (max_attempts : Nat) (t : String)
    (attempts : Nat) (st : WState) : Bool × WState :=
  if attempts ≤ max_attempts then
    let a := attempts + 1
    let st1 : WState :=
      ⟨st.commits, st.rollbacks,
       st.newConns + (if a = max_attempts then 1 else 0),
       st.attempts_log ++ [(t, a)]⟩
    if ok t a then
      (true, ⟨st1.commits + 1, st1.rollbacks, st1.newConns, st1.attempts_log⟩)
    else
      let st2 : WState :=
        if a ≤ max_attempts then
          ⟨st1.commits, st1.rollbacks + 1, st1.newConns, st1.attempts_log⟩
        else st1
      attemptLoop ok max_attempts t a st2
  else (false, st)
termination_by max_attempts + 1 - attempts
decreasing_by omega

/-- Embedding of `DbWriter.write_table_data`: iterate over the batch's
table names in order; on the first table whose retry loop succeeds,
return `True` for the whole batch; once every table's loop is exhausted,
return `False`.  The embedding is total: the Python `except` clause
catches every exception, so no exception escapes to the caller. -/
def write_table_data (ok : String → Nat → Bool) (max_attempts : Nat) :
    List String → WState → Bool × WState
  | [], st => (false, st)
  | t :: rest, st =>
    let res := attemptLoop ok max_attempts t 0 st
    if res.1 then (true, res.2) else write_table_data ok max_attempts rest res.2

/-- Number of attempts recorded for table `t` in an effects log. -/
def countAttempts (log : List (String × Nat)) (t : String) : Nat :=
  (log.filter (fun p => p.1 == t)).length

theorem attemptLoop_first_success (ok : String → Nat → Bool)
    (max_attempts : Nat) (t : String) (attempts : Nat) (st : WState)
    (hle : attempts ≤ max_attempts) (hok : ok t (attempts + 1) = true) :
    attemptLoop ok max_attempts t attempts st =
      (true, ⟨st.commits + 1, st.rollbacks,
        st.newConns + (if attempts + 1 = max_attempts then 1 else 0),
        st.attempts_log ++ [(t, attempts + 1)]⟩) := by
  rw [attemptLoop]
  simp [hle, hok]

/-- Evaluation of the retry loop when every attempt for `t` fails: the
loop performs attempts numbered `attempts+1, …, max_attempts+1`, one
rollback for every failed attempt still `≤ max_attempts`, one new
connection if attempt `max_attempts` is among them, and yields `false`. -/
theorem attemptLoop_all_fail (ok : String → Nat → Bool)
    (max_attempts : Nat) (t : String) (hfail : ∀ n, ok t n = false) :
    ∀ (attempts : Nat) (st : WState), attempts ≤ max_attempts + 1 →
      attemptLoop ok max_attempts t attempts st =
        (false, ⟨st.commits, st.rollbacks + (max_attempts - attempts),
          st.newConns + (if attempts < max_attempts then 1 else 0),
          st.attempts_log ++
            (List.range' (attempts + 1) (max_attempts + 1 - attempts)).map
              (fun n => (t, n))⟩) := by
  have key : ∀ (d attempts : Nat), max_attempts + 1 - attempts = d →
      ∀ st : WState, attempts ≤ max_attempts + 1 →
      attemptLoop ok max_attempts t attempts st =
        (false, ⟨st.commits, st.rollbacks + (max_attempts - attempts),
          st.newConns + (if attempts < max_attempts then 1 else 0),
          st.attempts_log ++
            (List.range' (attempts + 1) (max_attempts + 1 - attempts)).map
              (fun n => (t, n))⟩) := by
    intro d
    induction d with
    | zero =>
      intro attempts hd st hub
      have ha : attempts = max_attempts + 1 := by omega
      subst ha
      rw [attemptLoop]
      rw [if_neg (by omega)]
      have h1 : max_attempts - (max_attempts + 1) = 0 := by omega
      have h2 : ¬ (max_attempts + 1 < max_attempts) := by omega
      have h3 : max_attempts + 1 - (max_attempts + 1) = 0 := by omega
      simp [h1, h2, h3]
    | succ m ih =>
      intro attempts hd st hub
      have hle : attempts ≤ max_attempts := by omega
      have hlog : ∀ pre : List (String × Nat), pre ++ [(t, attempts + 1)] ++
          (List.range' (attempts + 1 + 1) (max_attempts + 1 - (attempts + 1))).map
            (fun n => (t, n)) =
          pre ++
            (List.range' (attempts + 1) (max_attempts + 1 - attempts)).map
              (fun n => (t, n)) := by
        intro pre
        rw [List.append_assoc]
        refine congrArg _ ?_
        have hsplit : max_attempts + 1 - attempts =
            (max_attempts + 1 - (attempts + 1)) + 1 := by omega
        rw [hsplit, List.range'_succ, List.map_cons]
        rfl
      rw [attemptLoop]
      rw [if_pos hle]
      simp only [hfail (attempts + 1), Bool.false_eq_true, if_false]
      by_cases hcase : attempts + 1 ≤ max_attempts
      · simp only [if_pos hcase]
        rw [ih (attempts + 1) (by omega) _ (by omega)]
        simp only [Prod.mk.injEq, WState.mk.injEq, true_and]
        refine ⟨by omega, ?_, hlog st.attempts_log⟩
        split_ifs <;> omega
      · simp only [if_neg hcase]
        rw [ih (attempts + 1) (by omega) _ (by omega)]
        simp only [Prod.mk.injEq, WState.mk.injEq, true_and]
        refine ⟨by omega, ?_, hlog st.attempts_log⟩
        split_ifs <;> omega
  intro attempts st hub
  exact key (max_attempts + 1 - attempts) attempts rfl st hub


/-- A prepended `(t, a)` entry merges with the following attempt-number
range. -/
theorem attempts_log_cons_range (t : String) (a k : Nat) :
    (t, a) :: (List.range' (a + 1) k).map (fun n => (t, n)) =
      (List.range' a (k + 1)).map (fun n => (t, n)) := by
  rw [List.range'_succ, List.map_cons]

/-- Whatever the attempt outcomes, the retry loop entered at `attempts`
appends attempts numbered `attempts+1, …, attempts+k` for some
`k ≤ max_attempts + 1 - attempts`. -/
theorem attemptLoop_log (ok : String → Nat → Bool) (max_attempts : Nat)
    (t : String) :
    ∀ (attempts : Nat) (st : WState),
      ∃ k, k ≤ max_attempts + 1 - attempts ∧
        (attemptLoop ok max_attempts t attempts st).2.attempts_log =
          st.attempts_log ++
            (List.range' (attempts + 1) k).map (fun n => (t, n)) := by
  have key : ∀ (d attempts : Nat), max_attempts + 1 - attempts = d →
      ∀ st : WState,
      ∃ k, k ≤ max_attempts + 1 - attempts ∧
        (attemptLoop ok max_attempts t attempts st).2.attempts_log =
          st.attempts_log ++
            (List.range' (attempts + 1) k).map (fun n => (t, n)) := by
    intro d
    induction d with
    | zero =>
      intro attempts hd st
      have hgt : ¬ attempts ≤ max_attempts := by omega
      refine ⟨0, by omega, ?_⟩
      rw [attemptLoop, if_neg hgt]
      simp
    | succ m ih =>
      intro attempts hd st
      have hle : attempts ≤ max_attempts := by omega
      rw [attemptLoop, if_pos hle]
      by_cases hok : ok t (attempts + 1) = true
      · refine ⟨1, by omega, ?_⟩
        simp [hok]
      · simp only [Bool.not_eq_true] at hok
        simp only [hok, Bool.false_eq_true, if_false]
        by_cases hcase : attempts + 1 ≤ max_attempts
        · simp only [if_pos hcase]
          obtain ⟨k, hk, hlog⟩ := ih (attempts + 1) (by omega) _
          refine ⟨k + 1, by omega, ?_⟩
          rw [hlog]
          simp only [List.append_assoc, List.singleton_append]
          rw [attempts_log_cons_range]
        · simp only [if_neg hcase]
          obtain ⟨k, hk, hlog⟩ := ih (attempts + 1) (by omega) _
          refine ⟨k + 1, by omega, ?_⟩
          rw [hlog]
          simp only [List.append_assoc, List.singleton_append]
          rw [attempts_log_cons_range]
  intro attempts st
  exact key (max_attempts + 1 - attempts) attempts rfl st

theorem countAttempts_append (l₁ l₂ : List (String × Nat)) (u : String) :
    countAttempts (l₁ ++ l₂) u = countAttempts l₁ u + countAttempts l₂ u := by
  simp [countAttempts, List.filter_append]

theorem countAttempts_le_length (l : List (String × Nat)) (u : String) :
    countAttempts l u ≤ l.length :=
  List.length_filter_le _ _

theorem countAttempts_eq_zero (l : List (String × Nat)) (u : String)
    (h : ∀ p ∈ l, p.1 ≠ u) : countAttempts l u = 0 := by
  have hfil : l.filter (fun p => p.1 == u) = [] := by
    rw [List.filter_eq_nil_iff]
    intro p hp
    simpa using h p hp
  simp [countAttempts, hfil]

/-- Structure of the full attempt log of one `write_table_data` call:
only the batch's tables are attempted, always with attempt numbers
between 1 and `max_attempts + 1`, and (for a duplicate-free batch — the
Python batch is a dict, so table names are unique) each table is
attempted at most `max_attempts + 1` times. -/
theorem write_table_data_log (ok : String → Nat → Bool) (max_attempts : Nat) :
    ∀ (tables : List String) (st : WState),
      ∃ E : List (String × Nat),
        (write_table_data ok max_attempts tables st).2.attempts_log =
          st.attempts_log ++ E ∧
        (∀ p ∈ E, p.1 ∈ tables ∧ 1 ≤ p.2 ∧ p.2 ≤ max_attempts + 1) ∧
        (tables.Nodup → ∀ u, countAttempts E u ≤ max_attempts + 1) := by
  intro tables
  induction tables with
  | nil =>
    intro st
    exact ⟨[], by simp [write_table_data], by simp, by simp [countAttempts]⟩
  | cons t rest ih =>
    intro st
    obtain ⟨k, hk, hseg⟩ := attemptLoop_log ok max_attempts t 0 st
    have hmem_seg : ∀ p ∈ (List.range' 1 k).map (fun n => (t, n)),
        p.1 = t ∧ 1 ≤ p.2 ∧ p.2 ≤ max_attempts + 1 := by
      intro p hp
      obtain ⟨n, hn, rfl⟩ := List.mem_map.mp hp
      obtain ⟨i, hi, rfl⟩ := List.mem_range'.mp hn
      exact ⟨rfl, by omega, by omega⟩
    have hcount_seg : ∀ u,
        countAttempts ((List.range' 1 k).map (fun n => (t, n))) u ≤
          max_attempts + 1 := by
      intro u
      calc countAttempts ((List.range' 1 k).map (fun n => (t, n))) u
          ≤ ((List.range' 1 k).map (fun n => (t, n))).length :=
            countAttempts_le_length _ _
        _ = k := by simp
        _ ≤ max_attempts + 1 := by omega
    have hcount_seg_ne : ∀ u, u ≠ t →
        countAttempts ((List.range' 1 k).map (fun n => (t, n))) u = 0 := by
      intro u hu
      refine countAttempts_eq_zero _ _ ?_
      intro p hp
      rw [(hmem_seg p hp).1]
      exact fun h => hu h.symm
    rw [show write_table_data ok max_attempts (t :: rest) st =
        (let res := attemptLoop ok max_attempts t 0 st
         if res.1 then (true, res.2)
         else write_table_data ok max_attempts rest res.2) from rfl]
    by_cases hres : (attemptLoop ok max_attempts t 0 st).1 = true
    · refine ⟨(List.range' 1 k).map (fun n => (t, n)), ?_, ?_, ?_⟩
      · simp only [hres, if_pos]
        exact hseg
      · intro p hp
        exact ⟨(hmem_seg p hp).1 ▸ List.mem_cons_self t rest,
          (hmem_seg p hp).2.1, (hmem_seg p hp).2.2⟩
      · intro _ u
        exact hcount_seg u
    · simp only [Bool.not_eq_true] at hres
      obtain ⟨E', hE'log, hE'mem, hE'count⟩ :=
        ih (attemptLoop ok max_attempts t 0 st).2
      refine ⟨(List.range' 1 k).map (fun n => (t, n)) ++ E', ?_, ?_, ?_⟩
      · simp only [hres, Bool.false_eq_true, if_false]
        rw [hE'log, hseg, List.append_assoc]
      · intro p hp
        rcases List.mem_append.mp hp with hp | hp
        · exact ⟨(hmem_seg p hp).1 ▸ List.mem_cons_self t rest,
            (hmem_seg p hp).2.1, (hmem_seg p hp).2.2⟩
        · exact ⟨List.mem_cons_of_mem t (hE'mem p hp).1,
            (hE'mem p hp).2.1, (hE'mem p hp).2.2⟩
      · intro hnodup u
        have hnotin : t ∉ rest := (List.nodup_cons.mp hnodup).1
        have hrest : rest.Nodup := (List.nodup_cons.mp hnodup).2
        rw [countAttempts_append]
        by_cases hu : u = t
        · subst hu
          have hzero : countAttempts E' u = 0 := by
            refine countAttempts_eq_zero _ _ ?_
            intro p hp hcontra
            exact hnotin (hcontra ▸ (hE'mem p hp).1)
          rw [hzero]
          have := hcount_seg u
          omega
        · rw [hcount_seg_ne u hu]
          have := hE'count hrest u
          omega

/-- When every insert attempt for every table fails, no table's loop
ever reaches `return True`, so `write_table_data` returns `False` (and,
the `except` clause catching every exception, nothing is raised). -/
theorem write_table_data_all_fail (ok : String → Nat → Bool)
    (max_attempts : Nat) (hfail : ∀ u n, ok u n = false) :
    ∀ (tables : List String) (st : WState),
      (write_table_data ok max_attempts tables st).1 = false := by
  intro tables
  induction tables with
  | nil => intro st; rfl
  | cons t rest ih =>
    intro st
    have hloop := attemptLoop_all_fail ok max_attempts t (hfail t) 0 st
      (by omega)
    rw [show write_table_data ok max_attempts (t :: rest) st =
        (let res := attemptLoop ok max_attempts t 0 st
         if res.1 then (true, res.2)
         else write_table_data ok max_attempts rest res.2) from rfl]
    simp only [hloop, Bool.false_eq_true, if_false]
    exact ih _

/-- C2 (amended). For every call to `write_table_data`, the insert
for each table of a duplicate-free batch is attempted at most
`max_attempts + 1` times (the `while attempts <= max_attempts` loop with
its increment at the top runs `max_attempts + 1` iterations), the
attempts being numbered 1 to `max_attempts + 1` inclusive; and when
every attempt for every table fails, the call returns `false` — the
embedding is total, reflecting that the `except Exception` handler keeps
any exception from reaching the caller. -/
theorem write_table_data_attempt_numbering (ok : String → Nat → Bool)
    (max_attempts : Nat) (tables : List String) :
    (∀ p ∈ (write_table_data ok max_attempts tables WState.init).2.attempts_log,
      1 ≤ p.2 ∧ p.2 ≤ max_attempts + 1) ∧
    (tables.Nodup → ∀ u,
      countAttempts
        (write_table_data ok max_attempts tables WState.init).2.attempts_log u ≤
          max_attempts + 1) ∧
    ((∀ u n, ok u n = false) →
      (write_table_data ok max_attempts tables WState.init).1 = false) := by
  obtain ⟨E, hlog, hmem, hcount⟩ :=
    write_table_data_log ok max_attempts tables WState.init
  rw [show WState.init.attempts_log = [] from rfl, List.nil_append] at hlog
  refine ⟨?_, ?_, ?_⟩
  · intro p hp
    rw [hlog] at hp
    exact ⟨(hmem p hp).2.1, (hmem p hp).2.2⟩
  · intro hnodup u
    rw [hlog]
    exact hcount hnodup u
  · intro hfail
    exact write_table_data_all_fail ok max_attempts hfail tables WState.init

/-- Witness for C2 (amended) at `max_attempts = 1`, batch `["a"]`, every
attempt failing. -/
theorem write_table_data_attempt_numbering_witness :
    (∀ p ∈ (write_table_data (fun _ _ => false) 1 ["a"]
        WState.init).2.attempts_log, 1 ≤ p.2 ∧ p.2 ≤ 2) ∧
    (countAttempts
      (write_table_data (fun _ _ => false) 1 ["a"]
        WState.init).2.attempts_log "a" ≤ 2) ∧
    ((write_table_data (fun _ _ => false) 1 ["a"] WState.init).1 = false) :=
  ⟨(write_table_data_attempt_numbering (fun _ _ => false) 1 ["a"]).1,
   (write_table_data_attempt_numbering (fun _ _ => false) 1 ["a"]).2.1
     (by decide) "a",
   (write_table_data_attempt_numbering (fun _ _ => false) 1 ["a"]).2.2
     (fun _ _ => rfl)⟩

/-- C2, counterexample to the claim as stated. With
`max_attempts = 1` and a single always-failing table, the insert is
attempted twice — the log records attempts numbered 1 and 2 — so the
attempt count exceeds `max_attempts` and an attempt carries a number
outside 1..`max_attempts`. -/
theorem write_attempt_count_exceeds_max :
    countAttempts
      (write_table_data (fun _ _ => false) 1 ["t"]
        WState.init).2.attempts_log "t" = 2 ∧
    ("t", 2) ∈ (write_table_data (fun _ _ => false) 1 ["t"]
        WState.init).2.attempts_log ∧
    ¬ (2 ≤ 1) := by
  have hloop := attemptLoop_all_fail (fun _ _ => false) 1 "t"
    (fun _ => rfl) 0 WState.init (by omega)
  have hwrite : write_table_data (fun _ _ => false) 1 ["t"] WState.init =
      (false, ⟨0, 1, 1, [("t", 1), ("t", 2)]⟩) := by
    rw [show write_table_data (fun _ _ => false) 1 ["t"] WState.init =
        (let res := attemptLoop (fun _ _ => false) 1 "t" 0 WState.init
         if res.1 then (true, res.2)
         else write_table_data (fun _ _ => false) 1 [] res.2) from rfl]
    rw [hloop]
    rfl
  rw [hwrite]
  refine ⟨by decide, by decide, by decide⟩

/-- Evaluation of the retry loop when the attempts numbered
`attempts+1, …, n₀-1` fail and the attempt numbered `n₀ ≤ max_attempts`
succeeds: one commit, one rollback per failure, and one new connection
exactly when `n₀ = max_attempts` (line 105 fires on the attempt numbered
`max_attempts`, whether or not it is the loop's final possible
iteration). -/
theorem attemptLoop_fail_until_success (ok : String → Nat → Bool)
    (max_attempts : Nat) (t : String) (n₀ : Nat)
    (hsucc : ok t n₀ = true) (hfail : ∀ n, n < n₀ → ok t n = false) :
    ∀ (attempts : Nat) (st : WState), attempts < n₀ → n₀ ≤ max_attempts →
      attemptLoop ok max_attempts t attempts st =
        (true, ⟨st.commits + 1, st.rollbacks + (n₀ - 1 - attempts),
          st.newConns + (if n₀ = max_attempts then 1 else 0),
          st.attempts_log ++
            (List.range' (attempts + 1) (n₀ - attempts)).map
              (fun n => (t, n))⟩) := by
  have key : ∀ (d attempts : Nat), n₀ - attempts = d →
      ∀ st : WState, attempts < n₀ → n₀ ≤ max_attempts →
      attemptLoop ok max_attempts t attempts st =
        (true, ⟨st.commits + 1, st.rollbacks + (n₀ - 1 - attempts),
          st.newConns + (if n₀ = max_attempts then 1 else 0),
          st.attempts_log ++
            (List.range' (attempts + 1) (n₀ - attempts)).map
              (fun n => (t, n))⟩) := by
    intro d
    induction d with
    | zero =>
      intro attempts hd st hlt _
      omega
    | succ m ih =>
      intro attempts hd st hlt hub
      have hle : attempts ≤ max_attempts := by omega
      rw [attemptLoop, if_pos hle]
      by_cases hlast : attempts + 1 = n₀
      · have h1 : n₀ - 1 - attempts = 0 := by omega
        have h2 : n₀ - attempts = 1 := by omega
        simp only [hlast, hsucc, if_true, h1, h2, Nat.add_zero,
          List.range'_one, List.map_cons, List.map_nil]
      · have hfl : ok t (attempts + 1) = false := hfail _ (by omega)
        simp only [hfl, Bool.false_eq_true, if_false]
        have hcase : attempts + 1 ≤ max_attempts := by omega
        simp only [if_pos hcase]
        have hne : ¬ (attempts + 1 = max_attempts) := by omega
        simp only [if_neg hne, Nat.add_zero]
        rw [ih (attempts + 1) (by omega) _ (by omega) hub]
        simp only [Prod.mk.injEq, WState.mk.injEq, true_and]
        refine ⟨by omega, ?_⟩
        rw [List.append_assoc, List.singleton_append, attempts_log_cons_range]
        have hmerge : n₀ - (attempts + 1) + 1 = n₀ - attempts := by omega
        rw [hmerge]
  intro attempts st hlt hub
  exact key (n₀ - attempts) attempts rfl st hlt hub

/-- C4 (amended). For every `max_attempts ≥ 2`, if the insert
attempts for a (single-table) batch fail `max_attempts - 1` consecutive
times and the next attempt — the one numbered `max_attempts` — succeeds,
`write_table_data` commits exactly one insert and performs exactly
`max_attempts - 1` rollbacks, but it opens exactly ONE new connection:
line 105 creates a new connection whenever the incremented `attempts`
equals `max_attempts`, and the successful attempt is that very one (it
is not the loop's final possible iteration, which would be attempt
`max_attempts + 1`). -/
theorem write_table_data_retry_then_success (ok : String → Nat → Bool)
    (max_attempts : Nat) (t : String) (h2 : 2 ≤ max_attempts)
    (hfail : ∀ n, n < max_attempts → ok t n = false)
    (hsucc : ok t max_attempts = true) :
    write_table_data ok max_attempts [t] WState.init =
      (true, ⟨1, max_attempts - 1, 1,
        (List.range' 1 max_attempts).map (fun n => (t, n))⟩) := by
  have hloop := attemptLoop_fail_until_success ok max_attempts t max_attempts
    hsucc hfail 0 WState.init (by omega) (by omega)
  rw [show write_table_data ok max_attempts [t] WState.init =
      (let res := attemptLoop ok max_attempts t 0 WState.init
       if res.1 then (true, res.2)
       else write_table_data ok max_attempts [] res.2) from rfl]
  rw [hloop]
  simp [WState.init]

/-- Witness for C4 (amended) at `max_attempts = 2`: one failure, then
success on the attempt numbered 2; one commit, one rollback, one new
connection. -/
theorem write_table_data_retry_then_success_witness :
    write_table_data (fun _ n => n == 2) 2 ["t"] WState.init =
      (true, ⟨1, 1, 1, [("t", 1), ("t", 2)]⟩) := by
  rw [write_table_data_retry_then_success (fun _ n => n == 2) 2 "t"
    (by omega) (by decide) rfl]
  rfl

/-- C4, counterexample to the claim as stated. At
`max_attempts = 2` with one failure followed by success, the code opens
one new connection, not zero: the "no new connection is opened" part of
the claim is false. -/
theorem new_connection_opened_counterexample :
    (write_table_data (fun _ n => n == 2) 2 ["t"]
        WState.init).2.newConns = 1 ∧
    ¬ ((write_table_data (fun _ n => n == 2) 2 ["t"]
        WState.init).2.newConns = 0) := by
  have hloop := attemptLoop_fail_until_success (fun _ n => n == 2) 2 "t" 2
    rfl (by decide) 0 WState.init (by omega) (by omega)
  have hwrite : write_table_data (fun _ n => n == 2) 2 ["t"] WState.init =
      (true, ⟨1, 1, 1, [("t", 1), ("t", 2)]⟩) := by
    rw [show write_table_data (fun _ n => n == 2) 2 ["t"] WState.init =
        (let res := attemptLoop (fun _ n => n == 2) 2 "t" 0 WState.init
         if res.1 then (true, res.2)
         else write_table_data (fun _ n => n == 2) 2 [] res.2) from rfl]
    rw [hloop]
    rfl
  rw [hwrite]
  exact ⟨rfl, by decide⟩

/-- If some attempt still reachable by the loop (numbered above the
current counter and at most `max_attempts + 1`) succeeds, the retry
loop ends in `return True`: it walks attempt numbers upward and stops
at the first successful one. -/
theorem attemptLoop_success_of_exists (ok : String → Nat → Bool)
    (max_attempts : Nat) (t : String) :
    ∀ (attempts : Nat) (st : WState),
      (∃ n, attempts < n ∧ n ≤ max_attempts + 1 ∧ ok t n = true) →
      (attemptLoop ok max_attempts t attempts st).1 = true := by
  have key : ∀ (d attempts : Nat), max_attempts + 1 - attempts = d →
      ∀ st : WState,
      (∃ n, attempts < n ∧ n ≤ max_attempts + 1 ∧ ok t n = true) →
      (attemptLoop ok max_attempts t attempts st).1 = true := by
    intro d
    induction d with
    | zero =>
      intro attempts hd st hex
      obtain ⟨n, hn1, hn2, _⟩ := hex
      omega
    | succ m ih =>
      intro attempts hd st hex
      have hle : attempts ≤ max_attempts := by omega
      rw [attemptLoop, if_pos hle]
      by_cases hok : ok t (attempts + 1) = true
      · simp [hok]
      · simp only [Bool.not_eq_true] at hok
        simp only [hok, Bool.false_eq_true, if_false]
        obtain ⟨n, hn1, hn2, hn3⟩ := hex
        have hne : n ≠ attempts + 1 := fun h => by
          rw [h, hok] at hn3
          exact Bool.false_ne_true hn3
        by_cases hcase : attempts + 1 ≤ max_attempts
        · simp only [if_pos hcase]
          exact ih (attempts + 1) (by omega) _ ⟨n, by omega, hn2, hn3⟩
        · simp only [if_neg hcase]
          exact ih (attempts + 1) (by omega) _ ⟨n, by omega, hn2, hn3⟩
  intro attempts st hex
  exact key (max_attempts + 1 - attempts) attempts rfl st hex

/-- C5. For every batch with two or more tables (here `t :: rest` with
any `rest`), if the first table's insert succeeds — on any attempt `n`
the retry loop can reach, first or after retries — `write_table_data`
returns `true` for the whole batch immediately after the first table's
loop (the `return True` at line 143), and the complete attempt log of
the call contains only attempts for the first table: no insert is ever
attempted for the remaining tables of the batch. -/
theorem write_table_data_returns_on_first_table_success
    (ok : String → Nat → Bool) (max_attempts : Nat) (t : String)
    (rest : List String) (st : WState) (n : Nat)
    (h1 : 1 ≤ n) (hn : n ≤ max_attempts + 1) (hsucc : ok t n = true) :
    (write_table_data ok max_attempts (t :: rest) st).1 = true ∧
    write_table_data ok max_attempts (t :: rest) st =
      (true, (attemptLoop ok max_attempts t 0 st).2) ∧
    ∃ k, k ≤ max_attempts + 1 ∧
      (write_table_data ok max_attempts (t :: rest) st).2.attempts_log =
        st.attempts_log ++ (List.range' 1 k).map (fun m => (t, m)) := by
  have hloop : (attemptLoop ok max_attempts t 0 st).1 = true :=
    attemptLoop_success_of_exists ok max_attempts t 0 st
      ⟨n, by omega, hn, hsucc⟩
  have hwrite : write_table_data ok max_attempts (t :: rest) st =
      (true, (attemptLoop ok max_attempts t 0 st).2) := by
    rw [show write_table_data ok max_attempts (t :: rest) st =
        (let res := attemptLoop ok max_attempts t 0 st
         if res.1 then (true, res.2)
         else write_table_data ok max_attempts rest res.2) from rfl]
    simp only [hloop, if_true]
  obtain ⟨k, hk, hlog⟩ := attemptLoop_log ok max_attempts t 0 st
  refine ⟨by rw [hwrite], hwrite, k, by omega, ?_⟩
  rw [hwrite]
  exact hlog

/-- Witness for C5 with the batch `["a", "b"]` and an oracle that fails
the first attempt and succeeds on the second: the call still returns
`true` right after table `"a"`'s loop, and the whole log is
`[("a", 1), ("a", 2)]` — table `"b"` is never attempted. -/
theorem write_table_data_returns_on_first_table_success_witness :
    ((write_table_data (fun _ m => m == 2) 5 ["a", "b"] WState.init).1
      = true) ∧
    write_table_data (fun _ m => m == 2) 5 ["a", "b"] WState.init =
      (true, (attemptLoop (fun _ m => m == 2) 5 "a" 0 WState.init).2) ∧
    ∃ k, k ≤ 6 ∧
      (write_table_data (fun _ m => m == 2) 5 ["a", "b"]
        WState.init).2.attempts_log =
        WState.init.attempts_log ++
          (List.range' 1 k).map (fun m => ("a", m)) :=
  write_table_data_returns_on_first_table_success (fun _ m => m == 2) 5
    "a" ["b"] WState.init 2 (by decide) (by decide) rfl

/-! ## Query executor (`db_utilities.py`, `DbUtilities.execute`)

`execute(query, params, as_dataframe, return_results)` initialises
`data` to an empty frame or empty list, runs the query inside a
`try`/`except Exception` that logs and swallows any failure, and then
returns `data` when `return_results` is true and `None` otherwise.  The
database interaction is modelled by an outcome: either the query
executes and produces a list of rows, or it fails. -/

/-- Outcome of running one SQL statement against the connection. -/
inductive ExecOutcome (ρ : Type) where
  | success (rows : List ρ)
  | failure
deriving Repr, DecidableEq

/-- The Python return value of `DbUtilities.execute`: a list of records,
a pandas dataframe (carrying the same rows), or `None`. -/
inductive ExecResult (ρ : Type) where
  | rows (l : List ρ)
  | frame (l : List ρ)
  | none_
deriving Repr, DecidableEq

/-- Embedding of `DbUtilities.execute` (lines 118-162): force
`as_dataframe` to false when `return_results` is false; initialise
`data` to an empty frame or list; on success overwrite `data` with the
fetched rows (frame path via `pd.read_sql`, record path via
`fetchall`; the modify path commits and leaves `data` alone); on
failure the `except` clause only logs, leaving `data` at its prior
value; finally return `data` if `return_results` else `None`.  The
embedding is total: no exception escapes `execute`. -/
def execute (outcome : ExecOutcome ρ) (as_dataframe return_results : Bool) :
    ExecResult ρ :=
  let adf := if return_results == false then false else as_dataframe
  let data : ExecResult ρ := if adf then .frame [] else .rows []
  let data : ExecResult ρ :=
    match outcome with
    | .success rows =>
      if adf then .frame rows
      else if return_results then .rows rows
      else data
    | .failure => data
  if return_results then data else .none_

/-- C7. The executor `DbUtilities.execute` never propagates an execution failure:
with `return_results` true a failed query yields the empty result (an
empty dataframe when `as_dataframe` is true, an empty list otherwise),
and with `return_results` false every outcome yields `None`.  The
embedding being a total function reflects that the `except Exception`
handler swallows the failure. -/
theorem execute_swallows_failure (ρ : Type) (adf : Bool)
    (outcome : ExecOutcome ρ) :
    (execute (ExecOutcome.failure : ExecOutcome ρ) adf true =
      (if adf then ExecResult.frame ([] : List ρ) else ExecResult.rows [])) ∧
    (execute outcome adf false = ExecResult.none_) := by
  constructor
  · cases adf <;> rfl
  · cases outcome <;> cases adf <;> rfl

/-! ## Relation existence probe (`DbUtilities.does_relation_exist`) -/

/-- Semantics of the probe `SELECT to_regclass((%s)) IS NOT NULL AS
exists` on a healthy connection: selecting a scalar expression always
returns exactly one row; its boolean is whether the named relation
exists (`to_regclass` yields NULL, not zero rows, for a missing
relation). -/
def regclassProbeOutcome (relation_exists : Bool) : ExecOutcome Bool :=
  .success [relation_exists]

/-- Embedding of `DbUtilities.does_relation_exist` (lines 369-372):
`data = execute(probe, [relation], False)` (records mode, returning
results) and then `return data != []`. -/
def does_relation_exist (outcome : ExecOutcome Bool) : Bool :=
  match execute outcome false true with
  | .rows data => decide (data ≠ [])
  | _ => false

/-- C8, behaviour at the failing input. For a relation that does
NOT exist, probed over a healthy connection, `does_relation_exist`
returns `true`: the probe query succeeds and returns its single row
`{exists: false}`, so `data != []` holds.  The function tests only the
row count of the probe result, never the returned boolean, so it
contradicts the claim that a missing relation yields `false`; it
returns `false` only when the probe query itself fails at the executor
layer. -/
theorem does_relation_exist_missing_relation :
    does_relation_exist (regclassProbeOutcome false) = true ∧
    does_relation_exist (regclassProbeOutcome true) = true ∧
    does_relation_exist ExecOutcome.failure = false := by
  refine ⟨rfl, rfl, rfl⟩

/-! ## Row count (`DbUtilities.get_table_row_count`) and `__iter__`
failure propagation -/

/-- Embedding of `DbUtilities.flatten_data` (lines 374-379): for every
result row and every requested field, append `item.get(field)`
(`none` when the key is absent, like Python `dict.get`). -/
def flatten_data (data : List (List (String × β))) (fields : List String) :
    List (Option β) :=
  data.bind (fun item => fields.map (fun f => List.lookup f item))

/-- Embedding of `DbUtilities.get_table_row_count` (lines 332-342): run
the COUNT query through `execute` (records mode, returning results),
flatten on the single field `"row_count"`, and index element `[0]`.
Python list indexing raises `IndexError` on an empty list; the outer
`none` models that exception, while `some v` models a normal return of
`v`. -/
def get_table_row_count (outcome : ExecOutcome (List (String × Nat))) :
    Option (Option Nat) :=
  let data :=
    match execute outcome false true with
    | .rows l => l
    | _ => []
  (flatten_data data ["row_count"]).get? 0

/-- Embedding of the call chain in `DbReader.__iter__` (line 42): the
row count is obtained with no exception handling, so an exception from
`get_table_row_count` propagates out of `__iter__` (outer `none`); on a
normal return carrying a count the reader state is built exactly as in
`dbIter`. -/
def dbIterChecked (countOutcome : ExecOutcome (List (String × Nat)))
    (tbl : List α) : Option (RState α) :=
  (get_table_row_count countOutcome).bind (fun rc =>
    rc.map (fun row_count =>
      let cache := get_table_data tbl CACHE_MAX_ROWS 0
      (⟨row_count, cache, 0, (cache.length : Int) - 1, 0⟩ : RState α)))

/-- C10. When the COUNT query fails at the executor layer, the
error is swallowed there and an empty list is returned; then
`get_table_row_count` raises (`[0]` on an empty flattened list —
modelled by `none`) instead of returning a count, whereas a successful
COUNT returns the count; consequently `DbReader.__iter__` propagates an
exception to its caller on database failure rather than starting an
empty iteration. -/
theorem get_table_row_count_raises_on_executor_failure :
    (execute (ExecOutcome.failure : ExecOutcome (List (String × Nat)))
        false true = ExecResult.rows []) ∧
    get_table_row_count ExecOutcome.failure = none ∧
    (∀ n : Nat, get_table_row_count (.success [[("row_count", n)]]) =
      some (some n)) ∧
    (∀ (α : Type) (tbl : List α), dbIterChecked ExecOutcome.failure tbl = none) := by
  refine ⟨rfl, rfl, fun n => rfl, fun α tbl => rfl⟩

/-! ## Column-type inference (`DbUtilities.create_table_from_values`) -/

/-- A Python scalar value appearing in a table row.  In Python `bool`
is a subclass of `int`, so `isinstance(b, int)` is true for booleans;
the payloads are irrelevant to the type inference. -/
inductive PyValue where
  | datetime (epoch : Int)
  | boolean (b : Bool)
  | integer (i : Int)
  | floating (f : Int)
  | bytes (bs : List Nat)
  | text (s : String)
deriving Repr, DecidableEq

/-- Python `isinstance(v, datetime.datetime)`. -/
def isinstance_datetime : PyValue → Bool
  | .datetime _ => true
  | _ => false

/-- Python `isinstance(v, bool)`. -/
def isinstance_bool : PyValue → Bool
  | .boolean _ => true
  | _ => false

/-- Python `isinstance(v, int)`: true for `bool` too (subclass). -/
def isinstance_int : PyValue → Bool
  | .boolean _ => true
  | .integer _ => true
  | _ => false

/-- Python `isinstance(v, float)`. -/
def isinstance_float : PyValue → Bool
  | .floating _ => true
  | _ => false

/-- Python `isinstance(v, bytes)`. -/
def isinstance_bytes : PyValue → Bool
  | .bytes _ => true
  | _ => false

/-- Embedding of the per-value branch structure of
`DbUtilities.create_table_from_values` (lines 204-217), where
`table_definition[col_name]` is assigned by two successive statements:
first the standalone `if isinstance(col_value, datetime.datetime):
table_definition[col_name] = 'timestamptz'`, and then the separate
`if bool / elif int / elif float / elif bytes / else: text` chain.
Each `let td := …` is one assignment statement to the dict entry; the
entry's final value is the last assignment executed.  The second chain
ends in a bare `else`, so it always assigns, unconditionally
overwriting whatever the first statement set. -/
def inferColType (v : PyValue) : Option String :=
  let td : Option String := none
  let td : Option String :=
    if isinstance_datetime v then some "timestamptz" else td
  let td : Option String :=
    some (if isinstance_bool v then "bool"
      else if isinstance_int v then "bigint"
      else if isinstance_float v then "double precision"
      else if isinstance_bytes v then "bytea"
      else "text")
  td

/-- Embedding of the column-to-type mapping that
`create_table_from_values` infers from the first row. -/
def create_table_from_values_types
    (table_data_row : List (String × PyValue)) :
    List (String × Option String) :=
  table_data_row.map (fun p => (p.1, inferColType p.2))

/-- C3, behaviour at the failing input. A timestamp value is
mapped to SQL type `text`, not `timestamptz`: the second `if`/`elif`
chain is not connected to the preceding timestamp `if`, and its bare
`else` overwrites the `'timestamptz'` assignment, so the first branch
is dead.  Every other case matches the claimed precedence: boolean →
`bool`, integer → `bigint`, float → `double precision`, bytes →
`bytea`, anything else → `text`. -/
theorem create_table_from_values_timestamp_is_text :
    inferColType (PyValue.datetime 0) = some "text" ∧
    some "text" ≠ some "timestamptz" ∧
    (∀ b, inferColType (.boolean b) = some "bool") ∧
    (∀ i, inferColType (.integer i) = some "bigint") ∧
    (∀ f, inferColType (.floating f) = some "double precision") ∧
    (∀ bs, inferColType (.bytes bs) = some "bytea") ∧
    (∀ s, inferColType (.text s) = some "text") ∧
    create_table_from_values_types [("ts", PyValue.datetime 0)] =
      [("ts", some "text")] := by
  refine ⟨rfl, by decide, fun b => rfl, fun i => rfl, fun f => rfl,
    fun bs => rfl, fun s => rfl, rfl⟩

/-! ## Identifier escaping (`db_utilities.py`, `escape_id`)

`escape_id(identifier)` (lines 38-49) computes
`identifier.replace(";", "").replace(".", "").replace("=", "").replace("--", "")`
and then walks the cleaned string, emitting every character and
doubling each double quote, between an opening and a closing double
quote.  Strings are modelled as `List Char`. -/

/-- Python `s.replace(c, "")` for a single-character pattern: every
occurrence is removed. -/
def removeChar (c : Char) (l : List Char) : List Char :=
  l.filter (fun x => x != c)

/-- Python `s.replace("--", "")`: left-to-right, non-overlapping removal
of the two-character inline-comment marker. -/
def removeDashDash : List Char → List Char
  | [] => []
  | [c] => [c]
  | c1 :: c2 :: rest =>
    if c1 = '-' ∧ c2 = '-' then removeDashDash rest
    else c1 :: removeDashDash (c2 :: rest)

/-- The quote-doubling loop of `escape_id` (lines 43-47): each
character is emitted, with an extra copy first when it is a double
quote. -/
def quoteLoop : List Char → List Char
  | [] => []
  | c :: rest =>
    if c = '"' then c :: c :: quoteLoop rest else c :: quoteLoop rest

/-- Embedding of `escape_id`: strip `;`, then `.`, then `=`, then `--`,
and wrap the result in double quotes, doubling embedded double
quotes. -/
def escape_id (identifier : List Char) : List Char :=
  let naively_cleaned_identifier :=
    removeDashDash (removeChar '=' (removeChar '.' (removeChar ';' identifier)))
  '"' :: quoteLoop naively_cleaned_identifier ++ ['"']

/-- No two adjacent characters are both dashes, i.e. the two-character
marker `--` does not occur. -/
def NoDoubleDash (l : List Char) : Prop :=
  l.Chain' (fun a b => ¬ (a = '-' ∧ b = '-'))

/-- Modelled from the spec: a body in which every double quote occurs
as part of a doubled pair (the interior of a syntactically well-formed
quoted identifier). -/
def quotesDoubled : List Char → Bool
  | [] => true
  | [c] => c != '"'
  | c1 :: c2 :: rest =>
    if c1 = '"' then (c2 == '"') && quotesDoubled rest
    else quotesDoubled (c2 :: rest)

/-- Modelled from the spec: "output is always syntactically a single
quoted identifier": an opening quote, a body whose double quotes are
all doubled, and a closing quote. -/
def IsQuotedIdentifier (e : List Char) : Prop :=
  ∃ body, e = '"' :: body ++ ['"'] ∧ quotesDoubled body = true

theorem mem_removeDashDash (c : Char) :
    ∀ l : List Char, c ∈ removeDashDash l → c ∈ l := by
  intro l
  induction l using removeDashDash.induct with
  | case1 => intro h; exact absurd h (List.not_mem_nil c)
  | case2 d => intro h; exact h
  | case3 c1 c2 rest hdd ih =>
    rw [removeDashDash, if_pos hdd]
    intro h
    exact List.mem_cons_of_mem _ (List.mem_cons_of_mem _ (ih h))
  | case4 c1 c2 rest hdd ih =>
    rw [removeDashDash, if_neg hdd]
    intro h
    rcases List.mem_cons.mp h with h | h
    · exact h ▸ List.mem_cons_self _ _
    · exact List.mem_cons_of_mem _ (ih h)

theorem mem_quoteLoop (c : Char) :
    ∀ l : List Char, c ∈ quoteLoop l → c ∈ l := by
  intro l
  induction l with
  | nil => intro h; exact absurd h (List.not_mem_nil c)
  | cons d rest ih =>
    rw [quoteLoop]
    by_cases hd : d = '"'
    · rw [if_pos hd]
      intro h
      rcases List.mem_cons.mp h with h | h
      · exact h ▸ List.mem_cons_self _ _
      · rcases List.mem_cons.mp h with h | h
        · exact h ▸ List.mem_cons_self _ _
        · exact List.mem_cons_of_mem _ (ih h)
    · rw [if_neg hd]
      intro h
      rcases List.mem_cons.mp h with h | h
      · exact h ▸ List.mem_cons_self _ _
      · exact List.mem_cons_of_mem _ (ih h)

theorem removeDashDash_head (c : Char) (hc : ¬ c = '-') (rest : List Char) :
    (removeDashDash (c :: rest)).head? = some c := by
  cases rest with
  | nil => rfl
  | cons c3 rest' =>
    rw [removeDashDash, if_neg (fun hand => hc hand.1)]
    rfl

theorem noDoubleDash_removeDashDash :
    ∀ l : List Char, NoDoubleDash (removeDashDash l) := by
  intro l
  induction l using removeDashDash.induct with
  | case1 => exact List.chain'_nil
  | case2 d => exact List.chain'_singleton d
  | case3 c1 c2 rest hdd ih =>
    rw [removeDashDash, if_pos hdd]
    exact ih
  | case4 c1 c2 rest hdd ih =>
    rw [removeDashDash, if_neg hdd]
    rw [NoDoubleDash, List.chain'_cons']
    refine ⟨?_, ih⟩
    intro y hy
    by_cases hc1 : c1 = '-'
    · have hc2 : ¬ c2 = '-' := fun hc2 => hdd ⟨hc1, hc2⟩
      rw [removeDashDash_head c2 hc2 rest] at hy
      have hy2 : y = c2 := by
        have := hy
        simp only [Option.mem_def, Option.some.injEq] at this
        exact this.symm
      exact fun hand => hc2 (hy2 ▸ hand.2)
    · exact fun hand => hc1 hand.1

theorem quoteLoop_head (l : List Char) : (quoteLoop l).head? = l.head? := by
  cases l with
  | nil => rfl
  | cons c rest =>
    rw [quoteLoop]
    by_cases hc : c = '"'
    · rw [if_pos hc]; rfl
    · rw [if_neg hc]; rfl

theorem noDoubleDash_quoteLoop :
    ∀ l : List Char, NoDoubleDash l → NoDoubleDash (quoteLoop l) := by
  intro l
  induction l with
  | nil => intro _; exact List.chain'_nil
  | cons c rest ih =>
    intro h
    obtain ⟨hrel, hrest⟩ := List.chain'_cons'.mp h
    rw [quoteLoop]
    by_cases hc : c = '"'
    · rw [if_pos hc]
      rw [NoDoubleDash, List.chain'_cons']
      refine ⟨?_, ?_⟩
      · intro y _
        exact fun hand => by
          rw [hc] at hand
          exact absurd hand.1 (by decide)
      · rw [List.chain'_cons']
        refine ⟨?_, ih hrest⟩
        intro y _
        exact fun hand => by
          rw [hc] at hand
          exact absurd hand.1 (by decide)
    · rw [if_neg hc]
      rw [NoDoubleDash, List.chain'_cons']
      refine ⟨?_, ih hrest⟩
      intro y hy
      rw [quoteLoop_head rest] at hy
      exact hrel y hy

theorem quotesDoubled_quoteLoop :
    ∀ l : List Char, quotesDoubled (quoteLoop l) = true := by
  intro l
  induction l with
  | nil => rfl
  | cons c rest ih =>
    rw [quoteLoop]
    by_cases hc : c = '"'
    · rw [if_pos hc, hc]
      rw [show quotesDoubled ('"' :: '"' :: quoteLoop rest) =
          (if ('"' : Char) = '"' then (('"' : Char) == '"') && quotesDoubled (quoteLoop rest)
           else quotesDoubled ('"' :: quoteLoop rest)) from rfl]
      rw [if_pos rfl, ih]
      rfl
    · rw [if_neg hc]
      cases hql : quoteLoop rest with
      | nil =>
        rw [show quotesDoubled [c] = (c != '"') from rfl]
        simp [hc]
      | cons x xs =>
        rw [show quotesDoubled (c :: x :: xs) =
            (if c = '"' then (x == '"') && quotesDoubled xs
             else quotesDoubled (x :: xs)) from rfl]
        rw [if_neg hc, ← hql, ih]

/-- C9. For every input string, `escape_id` returns a string that
begins and ends with a double quote, contains no semicolon, no period,
no equals sign, and no occurrence of the two-character inline-comment
marker `--`, and whose interior doubles every embedded double quote, so
the output is always syntactically a single quoted identifier (opening
quote, body with all double quotes doubled, closing quote) and can
never terminate the enclosing statement. -/
theorem escape_id_sanitizes (identifier : List Char) :
    (escape_id identifier).head? = some '"' ∧
    (escape_id identifier).getLast? = some '"' ∧
    ';' ∉ escape_id identifier ∧
    '.' ∉ escape_id identifier ∧
    '=' ∉ escape_id identifier ∧
    NoDoubleDash (escape_id identifier) ∧
    IsQuotedIdentifier (escape_id identifier) := by
  have hclean : ∀ c : Char, (c != ';') = false ∨ (c != '.') = false ∨
      (c != '=') = false →
      c ∉ removeDashDash (removeChar '='
        (removeChar '.' (removeChar ';' identifier))) := by
    intro c hc hmem
    have h1 := mem_removeDashDash c _ hmem
    have h2 := List.mem_filter.mp h1
    have h3 := List.mem_filter.mp h2.1
    have h4 := List.mem_filter.mp h3.1
    rcases hc with hc | hc | hc
    · rw [hc] at h4; exact Bool.false_ne_true h4.2
    · rw [hc] at h3; exact Bool.false_ne_true h3.2
    · rw [hc] at h2; exact Bool.false_ne_true h2.2
  have hmem_body : ∀ c : Char, (c != ';') = false ∨ (c != '.') = false ∨
      (c != '=') = false → c ≠ '"' → c ∉ escape_id identifier := by
    intro c hc hne hmem
    rcases List.mem_cons.mp hmem with h | h
    · exact hne h
    · rcases List.mem_append.mp h with h | h
      · exact hclean c hc (mem_quoteLoop c _ h)
      · rcases List.mem_cons.mp h with h | h
        · exact hne h
        · exact absurd h (List.not_mem_nil c)
  refine ⟨rfl, ?_, ?_, ?_, ?_, ?_, ?_⟩
  · rw [show escape_id identifier =
        ('"' :: quoteLoop (removeDashDash (removeChar '='
          (removeChar '.' (removeChar ';' identifier))))) ++ ['"'] from rfl]
    exact List.getLast?_concat _
  · exact hmem_body ';' (Or.inl rfl) (by decide)
  · exact hmem_body '.' (Or.inr (Or.inl rfl)) (by decide)
  · exact hmem_body '=' (Or.inr (Or.inr rfl)) (by decide)
  · have hbody : NoDoubleDash (quoteLoop (removeDashDash (removeChar '='
        (removeChar '.' (removeChar ';' identifier))))) :=
      noDoubleDash_quoteLoop _ (noDoubleDash_removeDashDash _)
    rw [NoDoubleDash, show escape_id identifier =
        '"' :: (quoteLoop (removeDashDash (removeChar '='
          (removeChar '.' (removeChar ';' identifier)))) ++ ['"']) from rfl,
      List.chain'_cons']
    refine ⟨?_, ?_⟩
    · intro y _
      exact fun hand => absurd hand.1 (by decide)
    · rw [List.chain'_append]
      refine ⟨hbody, List.chain'_singleton _, ?_⟩
      intro x _ y hy
      have hy2 : y = '"' := by
        have := hy
        simp only [List.head?_cons, Option.mem_def, Option.some.injEq] at this
        exact this.symm
      exact fun hand => absurd (hy2 ▸ hand.2) (by decide)
  · exact ⟨quoteLoop (removeDashDash (removeChar '='
      (removeChar '.' (removeChar ';' identifier)))), rfl,
      quotesDoubled_quoteLoop _⟩

end Dbrw
